import Mathlib

/-!
Shallow embedding of the set-matching loss engine of `BC._calculate_loss`
(`src/imitation/algorithms/bc.py`, branch for non-actor-critic policies,
lines 326-512), together with theorems settling the specification claims.

Modelling conventions:

* Numeric values are modelled by `ℚ`.  The Python code computes in float32;
  floating-point rounding and NaN/Inf are not modelled.  In particular a
  division by zero (which produces NaN in the code) is visible here only
  through its divisor, which the definitions record explicitly
  (see `yawDivisor`).
* Tensors are modelled by nested lists: a batch is a
  `List (List (List ℚ))` indexed as batch item / trajectory slot /
  vector component, and reading an out-of-range index yields a default
  (the theorems carry rectangularity hypotheses making indices in range).
* `scipy.optimize.linear_sum_assignment` is modelled by an executable
  enumeration of all one-to-one matchings of the remaining expert rows
  into the predicted columns together with a deterministic
  first-minimum choice.  The scipy contract — a deterministically chosen
  matching of minimal total cost over exactly that search space — is the
  only property of the solver that the code relies on.
* Shape failures that torch raises inside the matrix-building loop
  (IndexError on `pred_acts[:, j]`, RuntimeError on mismatched `MSELoss`
  operands) are coarsened to a single error value demanding exact shape
  agreement of the two tensors in that loop; the `assert` statements of
  lines 479-482 and the Python `UnboundLocalError` on `col_assigned`
  (which is only ever assigned inside the `num_of_traj_per_action > 1`
  branch) are modelled as separate error values, raised in source order.
-/

namespace BCLoss

section

attribute [local semireducible] Rat.mul Rat.inv Rat.add Rat.sub

/-- One trajectory: the flat numeric vector
`[position ctrl points, yaw ctrl points, time, existence]`. -/
abbrev Traj := List ℚ

/-- One batch item's trajectory set (`num_of_traj_per_action` slots). -/
abbrev TrajSet := List Traj

/-- A whole batch: `acts.shape = [batch_size, num_of_traj_per_action, size_traj]`. -/
abbrev Batch := List TrajSet

/-- Configuration held on the `BC` object: `traj_size_pos_ctrl_pts`,
`traj_size_yaw_ctrl_pts` and `weight_prob`. -/
structure Config where
  trajSizePosCtrlPts : ℕ
  trajSizeYawCtrlPts : ℕ
  weightProb : ℚ

/-- Element access `batch[n, i, :]` (out of range yields `[]`). -/
def getTraj (b : Batch) (n i : ℕ) : Traj := (b.getD n []).getD i []

/-- Sum of squared componentwise differences of two equally long vectors:
`th.sum(th.nn.MSELoss(reduction='none')(x, y))`. -/
def sqDiffSum (a b : List ℚ) : ℚ := ((a.zip b).map (fun p => (p.1 - p.2) ^ 2)).sum

/-- The time component `t[-2]` of a trajectory vector. -/
def timeOf (t : Traj) : ℚ := t.getD (t.length - 2) 0

/-- The existence component `t[-1]` of a trajectory vector. -/
def existOf (t : Traj) : ℚ := t.getD (t.length - 1) 0

/-- Model of `th.round` on exact rationals: round half to even. -/
def roundq (q : ℚ) : ℤ :=
  let f : ℤ := q.num.fdiv q.den
  let frac : ℚ := q - (f : ℚ)
  if frac = 1 / 2 then (if f % 2 = 0 then f else f + 1)
  else if frac < 1 / 2 then f else f + 1

/-- Entry `(i,j)` of `distance_matrix` (line 390): squared error summed over
`acts[:, i, 0:-1]` versus `pred_acts[:, j, 0:-1]` — every component except
the existence one — divided by `num_of_elements_per_traj = L`, the length
of the *whole* vector. -/
def distanceMatrixEntry (L : ℕ) (e s : Traj) : ℚ :=
  sqDiffSum e.dropLast s.dropLast / (L : ℚ)

/-- Entry `(i,j)` of `distance_pos_matrix` (line 391): squared error summed
over the first `traj_size_pos_ctrl_pts` components, divided by
`traj_size_pos_ctrl_pts`. -/
def distancePosMatrixEntry (P : ℕ) (e s : Traj) : ℚ :=
  sqDiffSum (e.take P) (s.take P) / (P : ℚ)

/-- The denominator used by `distance_yaw_matrix` (line 392):
`self.traj_size_yaw_ctrl_pts`, recorded explicitly so that a division by
zero is visible over `ℚ` (where `x / 0 = 0` instead of NaN). -/
def yawDivisor (Y : ℕ) : ℚ := (Y : ℚ)

/-- Entry `(i,j)` of `distance_yaw_matrix` (line 392): squared error summed
over components `[P, P+Y)`, divided by `traj_size_yaw_ctrl_pts`. -/
def distanceYawMatrixEntry (P Y : ℕ) (e s : Traj) : ℚ :=
  sqDiffSum ((e.drop P).take Y) ((s.drop P).take Y) / yawDivisor Y

/-- Entry `(n,i,j)` of `distance_time_matrix` (line 393).  The code computes
`th.sum(th.nn.MSELoss(reduction='none')(acts[:,i,-2], pred_acts[:,j,-2]), dim=0)`:
the operands have shape `[batch_size]`, so `dim=0` sums over the *batch*
dimension and the resulting scalar is broadcast into the `[:, i, j]` slice —
the batch index `n` does not influence the value. -/
def distanceTimeMatrixEntry (acts pred : Batch) (n i j : ℕ) : ℚ :=
  ((List.range acts.length).map
    (fun m => (timeOf (getTraj acts m i) - timeOf (getTraj pred m j)) ^ 2)).sum

/-- All one-to-one matchings of the rows in `rows` (in order) to pairwise
distinct columns drawn from `cols`.  This is the search space of
`scipy.optimize.linear_sum_assignment` on the reduced cost matrix. -/
def allMatchings : List ℕ → List ℕ → List (List (ℕ × ℕ))
  | [], _ => [[]]
  | r :: rs, cols =>
      cols.flatMap (fun c => (allMatchings rs (cols.erase c)).map (fun m => (r, c) :: m))

/-- Total cost of a matching. -/
def matchCost (cost : ℕ → ℕ → ℚ) (m : List (ℕ × ℕ)) : ℚ :=
  (m.map (fun p => cost p.1 p.2)).sum

/-- Deterministic choice of a minimum-cost element (first minimum wins). -/
def pickMin (cost : ℕ → ℕ → ℚ) : List (List (ℕ × ℕ)) → List (ℕ × ℕ)
  | [] => []
  | m :: ms =>
      ms.foldl (fun best m2 => if matchCost cost m2 < matchCost cost best then m2 else best) m

/-- Model of `scipy.optimize.linear_sum_assignment` on the reduced
`rows × ncols` cost matrix: a deterministically chosen matching of minimal
total cost assigning every row in `rows` to a distinct column `< ncols`. -/
def linearSumAssignment (cost : ℕ → ℕ → ℚ) (rows : List ℕ) (ncols : ℕ) : List (ℕ × ℕ) :=
  pickMin cost (allMatchings rows (List.range ncols))

/-- The expert rows of item `n` that survive the deletion loop of lines
419-428: row `i` is deleted iff `th.round(acts[n, i, -1]) == -1`. -/
def validExpertRows (acts : Batch) (K n : ℕ) : List ℕ :=
  (List.range K).filter (fun i => roundq (existOf (getTraj acts n i)) ≠ -1)

/-- The position cost matrix of item `n`, handed to the assignment solver
(`cost_matrix = distance_pos_matrix_numpy[index_batch, :, :]`, line 415). -/
def itemPosCost (P : ℕ) (acts pred : Batch) (n : ℕ) : ℕ → ℕ → ℚ :=
  fun i j => distancePosMatrixEntry P (getTraj acts n i) (getTraj pred n j)

/-- The matched `(expert row, predicted column)` pairs for item `n`, already
mapped back to original row indices (`map2RealRows`, lines 430-432). -/
def assignmentPairs (P : ℕ) (acts pred : Batch) (K n : ℕ) : List (ℕ × ℕ) :=
  linearSumAssignment (itemPosCost P acts pred n) (validExpertRows acts K n) K

/-- Entry `(n,i,j)` of `alpha_matrix`: initialized to all ones (line 407) and
replaced, only when `num_of_traj_per_action > 1`, by the 0/1 matrix of the
solved assignment (lines 413-432).  For `K = 1` (and `K = 0`) the all-ones
initialization survives. -/
def alphaMatrixEntry (P : ℕ) (acts pred : Batch) (K n i j : ℕ) : ℚ :=
  if K ≤ 1 then 1
  else if (i, j) ∈ assignmentPairs P acts pred K n then 1 else 0

/-- Sum `∑ i, alpha_matrix[n, i, j]` over the rows of column `j` (line 436). -/
def colAssignedRaw (P : ℕ) (acts pred : Batch) (K n j : ℕ) : ℚ :=
  ((List.range K).map (fun i => alphaMatrixEntry P acts pred K n i j)).sum

/-- `col_assigned[n, j] = th.round(th.sum(alpha_matrix, dim=1))[n, j]` as a
float (lines 436-438). -/
def colAssigned (P : ℕ) (acts pred : Batch) (K n j : ℕ) : ℚ :=
  ((roundq (colAssignedRaw P acts pred K n j) : ℤ) : ℚ)

/-- `col_not_assigned[n, j] = (~(col_assigned.bool())).float()[n, j]`
(line 437): 1 where the rounded column sum is zero, 0 elsewhere. -/
def colNotAssigned (P : ℕ) (acts pred : Batch) (K n j : ℕ) : ℚ :=
  if colAssigned P acts pred K n j ≠ 0 then 0 else 1

/-- Sum of `f` over `0, …, n-1`. -/
def sumRange (n : ℕ) (f : ℕ → ℚ) : ℚ := ((List.range n).map f).sum

/-- `norm_constant = 1 / (batch_size * num_of_traj_per_action)` (line 486). -/
def normConstant (N K : ℕ) : ℚ := 1 / ((N : ℚ) * (K : ℚ))

/-- `pos_yaw_time_loss = norm_constant * th.sum(alpha_matrix * distance_matrix)`
(line 488). -/
def posYawTimeLossVal (cfg : Config) (acts pred : Batch) (N K L : ℕ) : ℚ :=
  normConstant N K * sumRange N (fun n => sumRange K (fun i => sumRange K (fun j =>
    alphaMatrixEntry cfg.trajSizePosCtrlPts acts pred K n i j *
      distanceMatrixEntry L (getTraj acts n i) (getTraj pred n j))))

/-- `prob_loss` (line 489): the first term is normalized by
`1/(batch_size * num_of_traj_per_action)`, the second term is a bare sum.
`student_probs = pred_acts[:, :, -1]` and `tmp` is the all-ones tensor. -/
def probLossVal (cfg : Config) (acts pred : Batch) (N K : ℕ) : ℚ :=
  normConstant N K * sumRange N (fun n => sumRange K (fun j =>
    colAssigned cfg.trajSizePosCtrlPts acts pred K n j *
      (existOf (getTraj pred n j) - 1) ^ 2))
  + sumRange N (fun n => sumRange K (fun j =>
    colNotAssigned cfg.trajSizePosCtrlPts acts pred K n j *
      (existOf (getTraj pred n j) + 1) ^ 2))

/-- `pos_loss = norm_constant * th.sum(alpha_matrix * distance_pos_matrix)`
(line 493). -/
def posLossVal (cfg : Config) (acts pred : Batch) (N K : ℕ) : ℚ :=
  normConstant N K * sumRange N (fun n => sumRange K (fun i => sumRange K (fun j =>
    alphaMatrixEntry cfg.trajSizePosCtrlPts acts pred K n i j *
      distancePosMatrixEntry cfg.trajSizePosCtrlPts (getTraj acts n i) (getTraj pred n j))))

/-- `yaw_loss = norm_constant * th.sum(alpha_matrix * distance_yaw_matrix)`
(line 494). -/
def yawLossVal (cfg : Config) (acts pred : Batch) (N K : ℕ) : ℚ :=
  normConstant N K * sumRange N (fun n => sumRange K (fun i => sumRange K (fun j =>
    alphaMatrixEntry cfg.trajSizePosCtrlPts acts pred K n i j *
      distanceYawMatrixEntry cfg.trajSizePosCtrlPts cfg.trajSizeYawCtrlPts
        (getTraj acts n i) (getTraj pred n j))))

/-- `time_loss = norm_constant * th.sum(alpha_matrix * distance_time_matrix)`
(line 495). -/
def timeLossVal (cfg : Config) (acts pred : Batch) (N K : ℕ) : ℚ :=
  normConstant N K * sumRange N (fun n => sumRange K (fun i => sumRange K (fun j =>
    alphaMatrixEntry cfg.trajSizePosCtrlPts acts pred K n i j *
      distanceTimeMatrixEntry acts pred n i j)))

/-- The scalar loss and the diagnostic values of `stats_dict`
(lines 497 and 504-510). -/
structure LossOutput where
  loss : ℚ
  pos_loss : ℚ
  yaw_loss : ℚ
  time_loss : ℚ
  prob_loss : ℚ
deriving DecidableEq

/-- Failures of the loss computation, in the order the Python code can hit
them: tensor-shape failures inside the matrix-building loop (IndexError /
RuntimeError, coarsened), a too-short last dimension for the `[:, i, -2]`
time read (IndexError), the `assert` statements of lines 479-482
(AssertionError), and the read of the never-assigned `col_assigned` when
`num_of_traj_per_action ≤ 1` (UnboundLocalError, line 489). -/
inductive CalcError where
  | shapeMismatchInLoop
  | indexError
  | assertionError
  | unboundLocalColAssigned
deriving DecidableEq

/-- The successful outcome of `_calculate_loss` with the dimensions
`batch_size = N`, `num_of_traj_per_action = K`, `num_of_elements_per_traj = L`
(lines 486-510). -/
def lossOutputOf (cfg : Config) (acts pred : Batch) (N K L : ℕ) : LossOutput :=
  { loss := posYawTimeLossVal cfg acts pred N K L + cfg.weightProb * probLossVal cfg acts pred N K
    pos_loss := posLossVal cfg acts pred N K
    yaw_loss := yawLossVal cfg acts pred N K
    time_loss := timeLossVal cfg acts pred N K
    prob_loss := probLossVal cfg acts pred N K }

/-- The non-actor-critic branch of `BC._calculate_loss` (lines 326-512).
Dimensions are read off the `acts` tensor exactly as in lines 341-343; the
guards reproduce, in source order, the failure points described at
`CalcError`.  Note there is no validation of `L` against
`P + Y + 2`, and no `ShapeError` anywhere. -/
def calculateLoss (cfg : Config) (acts pred : Batch) : Except CalcError LossOutput :=
  let N := acts.length
  let K := (acts.getD 0 []).length
  let L := ((acts.getD 0 []).getD 0 []).length
  let predN := pred.length
  let predK := (pred.getD 0 []).length
  let predL := ((pred.getD 0 []).getD 0 []).length
  if ¬ (K ≤ predK ∧ predN = N ∧ predL = L) then .error .shapeMismatchInLoop
  else if L < 2 then .error .indexError
  else if predK ≠ K then .error .assertionError
  else if K ≤ 1 then .error .unboundLocalColAssigned
  else .ok (lossOutputOf cfg acts pred N K L)

/-- A batch is rectangular with dimensions `N × K × L`. -/
def RectBatch (b : Batch) (N K L : ℕ) : Prop :=
  b.length = N ∧ ∀ s ∈ b, s.length = K ∧ ∀ t ∈ s, t.length = L

instance decRectBatch (b : Batch) (N K L : ℕ) : Decidable (RectBatch b N K L) :=
  inferInstanceAs (Decidable (b.length = N ∧ ∀ s ∈ b, s.length = K ∧ ∀ t ∈ s, t.length = L))

/-- Projection of a computation result onto the scalar loss. -/
def okLoss (r : Except CalcError LossOutput) : Option ℚ :=
  match r with
  | .ok o => some o.loss
  | .error _ => none

/-- Projection of a computation result onto the `pos_loss` diagnostic. -/
def okPosLoss (r : Except CalcError LossOutput) : Option ℚ :=
  match r with
  | .ok o => some o.pos_loss
  | .error _ => none

/-- Whether a computation result is a success. -/
def resultIsOk (r : Except CalcError LossOutput) : Bool :=
  match r with
  | .ok _ => true
  | .error _ => false

/-- Projection of a computation result onto the error it raised, if any. -/
def errOf (r : Except CalcError LossOutput) : Option CalcError :=
  match r with
  | .ok _ => none
  | .error e => some e

/-- Claim-side restatement (in the spec's wording) of `matched_cost[full]`:
`(1/(N·K)) · Σ_items Σ_ij assignment[i,j] · cost[full][i,j]`. -/
def matchedCostFull (cfg : Config) (acts pred : Batch) (N K L : ℕ) : ℚ :=
  (1 / ((N : ℚ) * (K : ℚ))) * sumRange N (fun n => sumRange K (fun i => sumRange K (fun j =>
    alphaMatrixEntry cfg.trajSizePosCtrlPts acts pred K n i j *
      distanceMatrixEntry L (getTraj acts n i) (getTraj pred n j))))

/-- Claim-side restatement (in the spec's wording) of `prob_loss`: the
normalized sum of `(score[j]-1)²` over assigned predicted slots, plus the
un-normalized sum of `(score[j]+1)²` over unassigned predicted slots. -/
def specProbLoss (cfg : Config) (acts pred : Batch) (N K : ℕ) : ℚ :=
  (1 / ((N : ℚ) * (K : ℚ))) * sumRange N (fun n =>
    (((List.range K).filter (fun j =>
        j ∈ (assignmentPairs cfg.trajSizePosCtrlPts acts pred K n).map Prod.snd)).map
      (fun j => (existOf (getTraj pred n j) - 1) ^ 2)).sum)
  + sumRange N (fun n =>
    (((List.range K).filter (fun j =>
        j ∉ (assignmentPairs cfg.trajSizePosCtrlPts acts pred K n).map Prod.snd)).map
      (fun j => (existOf (getTraj pred n j) + 1) ^ 2)).sum)

/-- Claim-side definition of the `full` cost entry as the spec words it:
squared error over the compared sub-vector (all components but the last),
divided by the length of that compared sub-vector. -/
def specFullEntry (e s : Traj) : ℚ :=
  sqDiffSum e.dropLast s.dropLast / ((e.dropLast.length : ℕ) : ℚ)

/-- Claim-side statement that the cost-matrix construction divides by no
zero divisor: the three denominators used at lines 390-392 — the full
vector length `L`, `traj_size_pos_ctrl_pts` and `traj_size_yaw_ctrl_pts`
(the latter recorded by `yawDivisor`) — are all nonzero. -/
def specNoDivByZero (P Y L : ℕ) : Prop :=
  ((L : ℚ) ≠ 0) ∧ ((P : ℚ) ≠ 0) ∧ yawDivisor Y ≠ 0

/-- Reordering of one item's predicted trajectory set by the index map `σ`:
slot `j` of the result is slot `σ j` of the input. -/
def permuteItem (σ : ℕ → ℕ) (item : TrajSet) : TrajSet :=
  (List.range item.length).map (fun j => item.getD (σ j) [])

/-- Reordering the predicted trajectory sets item by item: item `n` is
reordered by its own index map `σ n`.  Taking `σ n` to be the identity on
every item but one reorders a single item's slots. -/
def permutePredAt (σ : ℕ → ℕ → ℕ) (pred : Batch) : Batch :=
  (List.range pred.length).map (fun n => permuteItem (σ n) (pred.getD n []))

/-- Rewriting a `sumRange` as a `Finset.range` sum. -/
theorem sumRange_eq_finset (n : ℕ) (f : ℕ → ℚ) :
    sumRange n f = ∑ i ∈ Finset.range n, f i := by
  induction n with
  | zero => rfl
  | succ k ih =>
    rw [sumRange, List.range_succ, List.map_append, List.sum_append,
      Finset.sum_range_succ, ← sumRange, ih]
    simp

/-- Pointwise congruence for `sumRange`. -/
theorem sumRange_congr {n : ℕ} {f g : ℕ → ℚ} (h : ∀ i < n, f i = g i) :
    sumRange n f = sumRange n g := by
  unfold sumRange
  exact congrArg List.sum (List.map_congr_left fun a ha => h a (List.mem_range.mp ha))

/-- A `sumRange` of zeros vanishes. -/
theorem sumRange_zero_fn (n : ℕ) : sumRange n (fun _ => (0 : ℚ)) = 0 := by
  simp [sumRange]

/-- Membership in `allMatchings rows cols` (for duplicate-free `cols`) says
exactly: the rows are matched in order, to pairwise distinct columns drawn
from `cols`. -/
theorem mem_allMatchings :
    ∀ (rows cols : List ℕ) (m : List (ℕ × ℕ)), cols.Nodup →
      (m ∈ allMatchings rows cols ↔
        m.map Prod.fst = rows ∧ (m.map Prod.snd).Nodup ∧ ∀ c ∈ m.map Prod.snd, c ∈ cols) := by
  intro rows
  induction rows with
  | nil =>
    intro cols m _
    constructor
    · intro hm
      have hmnil : m = [] := by simpa [allMatchings] using hm
      subst hmnil; simp
    · rintro ⟨hfst, -, -⟩
      have hmnil : m = [] := by
        cases m with
        | nil => rfl
        | cons p m' => simp at hfst
      subst hmnil; simp [allMatchings]
  | cons r rs ih =>
    intro cols m hnd
    have hunfold : allMatchings (r :: rs) cols
        = cols.flatMap (fun c => (allMatchings rs (cols.erase c)).map (fun m => (r, c) :: m)) :=
      rfl
    constructor
    · intro hm
      rw [hunfold] at hm
      obtain ⟨c, hc, hm2⟩ := List.mem_flatMap.mp hm
      obtain ⟨m', hm', rfl⟩ := List.mem_map.mp hm2
      obtain ⟨h1, h2, h3⟩ := (ih (cols.erase c) m' (hnd.erase c)).mp hm'
      refine ⟨by simp [h1], ?_, ?_⟩
      · rw [List.map_cons]
        refine List.nodup_cons.mpr ⟨fun hmem => ?_, h2⟩
        exact hnd.not_mem_erase (h3 c hmem)
      · intro x hx
        rw [List.map_cons] at hx
        rcases List.mem_cons.mp hx with rfl | hx
        · exact hc
        · exact List.erase_subset _ _ (h3 x hx)
    · rintro ⟨hfst, hnodup, hmem⟩
      cases m with
      | nil => simp at hfst
      | cons p m'' =>
        simp only [List.map_cons, List.cons.injEq] at hfst
        obtain ⟨hp, hm''⟩ := hfst
        rw [List.map_cons] at hnodup hmem
        have hnc := List.nodup_cons.mp hnodup
        rw [hunfold]
        refine List.mem_flatMap.mpr ⟨p.2, hmem p.2 (by simp), List.mem_map.mpr ⟨m'', ?_, ?_⟩⟩
        · apply (ih (cols.erase p.2) m'' (hnd.erase _)).mpr
          refine ⟨hm'', hnc.2, fun c hc => ?_⟩
          refine hnd.mem_erase_iff.mpr ⟨fun hcc => ?_, hmem c (by simp [hc])⟩
          exact hnc.1 (hcc ▸ hc)
        · have hpe : (r, p.2) = p := by rw [← hp]
          rw [hpe]

/-- `allMatchings` is nonempty whenever there are at least as many columns
as rows. -/
theorem allMatchings_ne_nil :
    ∀ (rows cols : List ℕ), rows.length ≤ cols.length → allMatchings rows cols ≠ [] := by
  intro rows
  induction rows with
  | nil => intro cols _; simp [allMatchings]
  | cons r rs ih =>
    intro cols hlen
    cases cols with
    | nil => simp at hlen
    | cons c cs =>
      intro hnil
      have hunfold : allMatchings (r :: rs) (c :: cs)
          = (c :: cs).flatMap
              (fun x => (allMatchings rs ((c :: cs).erase x)).map (fun m => (r, x) :: m)) :=
        rfl
      rw [hunfold, List.flatMap_cons] at hnil
      have h1 := (List.append_eq_nil.mp hnil).1
      rw [List.erase_cons_head] at h1
      have h2 : allMatchings rs cs = [] := List.map_eq_nil_iff.mp h1
      exact ih cs (by simpa using Nat.le_of_succ_le_succ hlen) h2

/-- The `foldl` underlying `pickMin` returns the accumulator or a list
element. -/
theorem foldl_min_mem (cost : ℕ → ℕ → ℚ) :
    ∀ (l : List (List (ℕ × ℕ))) (a : List (ℕ × ℕ)),
      l.foldl (fun best m2 => if matchCost cost m2 < matchCost cost best then m2 else best) a = a
      ∨ l.foldl (fun best m2 => if matchCost cost m2 < matchCost cost best then m2 else best) a ∈ l := by
  intro l
  induction l with
  | nil => intro a; left; rfl
  | cons x xs ih =>
    intro a
    rw [List.foldl_cons]
    rcases ih (if matchCost cost x < matchCost cost a then x else a) with h | h
    · rw [h]
      by_cases hc : matchCost cost x < matchCost cost a
      · right; simp [hc]
      · left; simp [hc]
    · right; exact List.mem_cons_of_mem _ h

/-- The `foldl` underlying `pickMin` attains the minimum cost among the
accumulator and the list elements. -/
theorem foldl_min_le (cost : ℕ → ℕ → ℚ) :
    ∀ (l : List (List (ℕ × ℕ))) (a : List (ℕ × ℕ)),
      matchCost cost
          (l.foldl (fun best m2 => if matchCost cost m2 < matchCost cost best then m2 else best) a)
        ≤ matchCost cost a
      ∧ ∀ m ∈ l,
        matchCost cost
            (l.foldl (fun best m2 => if matchCost cost m2 < matchCost cost best then m2 else best) a)
          ≤ matchCost cost m := by
  intro l
  induction l with
  | nil => intro a; exact ⟨le_refl _, by simp⟩
  | cons x xs ih =>
    intro a
    rw [List.foldl_cons]
    obtain ⟨h1, h2⟩ := ih (if matchCost cost x < matchCost cost a then x else a)
    have hxa : matchCost cost (if matchCost cost x < matchCost cost a then x else a)
        ≤ matchCost cost a := by
      by_cases hc : matchCost cost x < matchCost cost a
      · rw [if_pos hc]; exact le_of_lt hc
      · rw [if_neg hc]
    have hxx : matchCost cost (if matchCost cost x < matchCost cost a then x else a)
        ≤ matchCost cost x := by
      by_cases hc : matchCost cost x < matchCost cost a
      · rw [if_pos hc]
      · rw [if_neg hc]; exact le_of_not_lt hc
    refine ⟨le_trans h1 hxa, fun m hm => ?_⟩
    rcases List.mem_cons.mp hm with rfl | hm
    · exact le_trans h1 hxx
    · exact h2 m hm

/-- `pickMin` returns an element of a nonempty candidate list. -/
theorem pickMin_mem (cost : ℕ → ℕ → ℚ) (ms : List (List (ℕ × ℕ))) (h : ms ≠ []) :
    pickMin cost ms ∈ ms := by
  cases ms with
  | nil => exact absurd rfl h
  | cons x xs =>
    rw [pickMin]
    rcases foldl_min_mem cost xs x with h | h
    · rw [h]; exact List.mem_cons_self _ _
    · exact List.mem_cons_of_mem _ h

/-- `pickMin` attains the minimum cost over the candidate list. -/
theorem pickMin_le (cost : ℕ → ℕ → ℚ) (ms : List (List (ℕ × ℕ))) :
    ∀ m ∈ ms, matchCost cost (pickMin cost ms) ≤ matchCost cost m := by
  cases ms with
  | nil => simp
  | cons x xs =>
    intro m hm
    rw [pickMin]
    obtain ⟨h1, h2⟩ := foldl_min_le cost xs x
    rcases List.mem_cons.mp hm with rfl | hm
    · exact h1
    · exact h2 m hm

/-- The valid-rows list is duplicate-free. -/
theorem validExpertRows_nodup (acts : Batch) (K n : ℕ) :
    (validExpertRows acts K n).Nodup :=
  (List.nodup_range K).filter _

/-- Valid rows are `< K`. -/
theorem validExpertRows_lt (acts : Batch) (K n : ℕ) :
    ∀ i ∈ validExpertRows acts K n, i < K := fun i hi =>
  List.mem_range.mp (List.mem_filter.mp hi).1

/-- The solved assignment is one of the admissible matchings. -/
theorem assignmentPairs_mem (P : ℕ) (acts pred : Batch) (K n : ℕ) :
    assignmentPairs P acts pred K n
      ∈ allMatchings (validExpertRows acts K n) (List.range K) := by
  apply pickMin_mem
  apply allMatchings_ne_nil
  simpa using List.length_filter_le _ (List.range K)

/-- The solved assignment has minimal position cost among all admissible
matchings. -/
theorem assignmentPairs_min (P : ℕ) (acts pred : Batch) (K n : ℕ) :
    ∀ m ∈ allMatchings (validExpertRows acts K n) (List.range K),
      matchCost (itemPosCost P acts pred n) (assignmentPairs P acts pred K n)
        ≤ matchCost (itemPosCost P acts pred n) m :=
  pickMin_le _ _

/-- The matched rows are exactly the valid expert rows, in order. -/
theorem assignmentPairs_fst (P : ℕ) (acts pred : Batch) (K n : ℕ) :
    (assignmentPairs P acts pred K n).map Prod.fst = validExpertRows acts K n :=
  ((mem_allMatchings _ _ _ (List.nodup_range K)).mp (assignmentPairs_mem P acts pred K n)).1

/-- The matched columns are pairwise distinct. -/
theorem assignmentPairs_snd_nodup (P : ℕ) (acts pred : Batch) (K n : ℕ) :
    ((assignmentPairs P acts pred K n).map Prod.snd).Nodup :=
  ((mem_allMatchings _ _ _ (List.nodup_range K)).mp (assignmentPairs_mem P acts pred K n)).2.1

/-- The matched columns are `< K`. -/
theorem assignmentPairs_snd_lt (P : ℕ) (acts pred : Batch) (K n : ℕ) :
    ∀ c ∈ (assignmentPairs P acts pred K n).map Prod.snd, c < K := fun c hc =>
  List.mem_range.mp
    (((mem_allMatchings _ _ _ (List.nodup_range K)).mp
      (assignmentPairs_mem P acts pred K n)).2.2 c hc)

/-- Rounding the exact value 0. -/
theorem roundq_zero : roundq 0 = 0 := by decide

/-- Rounding the exact value 1. -/
theorem roundq_one : roundq 1 = 1 := by decide

/-- `getD` at an in-range index is a member. -/
theorem getD_mem {α : Type} (l : List α) (n : ℕ) (d : α) (h : n < l.length) :
    l.getD n d ∈ l := by
  rw [List.getD_eq_getElem?_getD, List.getElem?_eq_getElem h, Option.getD_some]
  exact List.getElem_mem h

/-- Item lengths of a rectangular batch. -/
theorem RectBatch.item_length {b : Batch} {N K L : ℕ} (h : RectBatch b N K L)
    {n : ℕ} (hn : n < N) : (b.getD n []).length = K :=
  (h.2 _ (getD_mem b n [] (h.1 ▸ hn))).1

/-- Trajectory lengths of a rectangular batch. -/
theorem RectBatch.traj_length {b : Batch} {N K L : ℕ} (h : RectBatch b N K L)
    {n i : ℕ} (hn : n < N) (hi : i < K) : (getTraj b n i).length = L := by
  have hs : b.getD n [] ∈ b := getD_mem b n [] (h.1 ▸ hn)
  have hlen : (b.getD n []).length = K := (h.2 _ hs).1
  exact (h.2 _ hs).2 _ (getD_mem _ i [] (hlen ▸ hi))

/-- On the `K > 1` path, an `alpha_matrix` entry is the 0/1 indicator of the
solved assignment. -/
theorem alphaMatrixEntry_eq_ind (P : ℕ) (acts pred : Batch) (K n i j : ℕ) (hK : 2 ≤ K) :
    alphaMatrixEntry P acts pred K n i j
      = if (i, j) ∈ assignmentPairs P acts pred K n then 1 else 0 := by
  rw [alphaMatrixEntry, if_neg (by omega)]

/-- The solved pairs are duplicate-free. -/
theorem assignmentPairs_nodup (P : ℕ) (acts pred : Batch) (K n : ℕ) :
    (assignmentPairs P acts pred K n).Nodup :=
  List.Nodup.of_map Prod.fst
    (assignmentPairs_fst P acts pred K n ▸ validExpertRows_nodup acts K n)

/-- Both coordinates of every solved pair are `< K`. -/
theorem assignmentPairs_bounds (P : ℕ) (acts pred : Batch) (K n : ℕ) :
    ∀ p ∈ assignmentPairs P acts pred K n, p.1 < K ∧ p.2 < K := by
  intro p hp
  constructor
  · have : p.1 ∈ (assignmentPairs P acts pred K n).map Prod.fst :=
      List.mem_map.mpr ⟨p, hp, rfl⟩
    rw [assignmentPairs_fst] at this
    exact validExpertRows_lt acts K n _ this
  · exact assignmentPairs_snd_lt P acts pred K n _ (List.mem_map.mpr ⟨p, hp, rfl⟩)

/-- A doubly indexed sum of assignment indicators times a cost collapses to
the total cost of the assigned pairs. -/
theorem sum_ind_mul_eq_matchCost (cost : ℕ → ℕ → ℚ) (pairs : List (ℕ × ℕ)) (K : ℕ)
    (hnodup : pairs.Nodup) (hsub : ∀ p ∈ pairs, p.1 < K ∧ p.2 < K) :
    sumRange K (fun i => sumRange K (fun j =>
      (if (i, j) ∈ pairs then (1 : ℚ) else 0) * cost i j)) = matchCost cost pairs := by
  simp_rw [sumRange_eq_finset]
  rw [← Finset.sum_product']
  have h1 : ∀ x ∈ Finset.range K ×ˢ Finset.range K,
      (if (x.1, x.2) ∈ pairs then (1 : ℚ) else 0) * cost x.1 x.2
        = if x ∈ pairs.toFinset then cost x.1 x.2 else 0 := by
    intro x _
    rw [Prod.mk.eta]
    by_cases hx : x ∈ pairs
    · rw [if_pos hx, if_pos (List.mem_toFinset.mpr hx), one_mul]
    · rw [if_neg hx, if_neg (fun hc => hx (List.mem_toFinset.mp hc)), zero_mul]
  rw [Finset.sum_congr rfl h1, Finset.sum_ite_mem]
  have h2 : (Finset.range K ×ˢ Finset.range K) ∩ pairs.toFinset = pairs.toFinset := by
    apply Finset.inter_eq_right.mpr
    intro p hp
    have hp' := hsub p (List.mem_toFinset.mp hp)
    exact Finset.mem_product.mpr ⟨Finset.mem_range.mpr hp'.1, Finset.mem_range.mpr hp'.2⟩
  rw [h2, List.sum_toFinset _ hnodup]
  rfl

/-- On the `K > 1` path, summing `alpha_matrix` entries against any cost
matrix yields the total cost of the assigned pairs. -/
theorem sum_alpha_mul_eq_matchCost (P : ℕ) (acts pred : Batch) (K n : ℕ) (hK : 2 ≤ K)
    (cost : ℕ → ℕ → ℚ) :
    sumRange K (fun i => sumRange K (fun j =>
      alphaMatrixEntry P acts pred K n i j * cost i j))
      = matchCost cost (assignmentPairs P acts pred K n) := by
  have h := sum_ind_mul_eq_matchCost cost (assignmentPairs P acts pred K n) K
    (assignmentPairs_nodup P acts pred K n) (assignmentPairs_bounds P acts pred K n)
  rw [← h]
  apply sumRange_congr
  intro i _
  apply sumRange_congr
  intro j _
  rw [alphaMatrixEntry_eq_ind P acts pred K n i j hK]

/-- On the `K > 1` path, the raw column sum of `alpha_matrix` is the 0/1
indicator of the column being matched. -/
theorem colAssignedRaw_eq_ind (P : ℕ) (acts pred : Batch) (K n j : ℕ) (hK : 2 ≤ K) :
    colAssignedRaw P acts pred K n j
      = if j ∈ (assignmentPairs P acts pred K n).map Prod.snd then 1 else 0 := by
  have hraw : colAssignedRaw P acts pred K n j
      = sumRange K (fun i => if (i, j) ∈ assignmentPairs P acts pred K n then (1 : ℚ) else 0) := by
    apply sumRange_congr
    intro i _
    exact alphaMatrixEntry_eq_ind P acts pred K n i j hK
  rw [hraw, sumRange_eq_finset]
  by_cases hj : j ∈ (assignmentPairs P acts pred K n).map Prod.snd
  · obtain ⟨p, hp, hpj⟩ := List.mem_map.mp hj
    rw [if_pos hj]
    have hinj := List.inj_on_of_nodup_map (assignmentPairs_snd_nodup P acts pred K n)
    have hb := assignmentPairs_bounds P acts pred K n p hp
    rw [Finset.sum_eq_single_of_mem p.1 (Finset.mem_range.mpr hb.1)]
    · rw [if_pos]
      have hpe : (p.1, j) = p := Prod.ext rfl hpj.symm
      rw [hpe]; exact hp
    · intro i _ hne
      rw [if_neg]
      intro hmem
      have heq := hinj hmem hp (by simpa using hpj.symm)
      exact hne (congrArg Prod.fst heq)
  · rw [if_neg hj]
    apply Finset.sum_eq_zero
    intro i _
    rw [if_neg]
    intro hmem
    exact hj (List.mem_map.mpr ⟨(i, j), hmem, rfl⟩)

/-- On the `K > 1` path, `col_assigned` is the 0/1 indicator of the column
being matched. -/
theorem colAssigned_eq_ind (P : ℕ) (acts pred : Batch) (K n j : ℕ) (hK : 2 ≤ K) :
    colAssigned P acts pred K n j
      = if j ∈ (assignmentPairs P acts pred K n).map Prod.snd then 1 else 0 := by
  rw [colAssigned, colAssignedRaw_eq_ind P acts pred K n j hK]
  by_cases hj : j ∈ (assignmentPairs P acts pred K n).map Prod.snd
  · rw [if_pos hj, roundq_one]; norm_num
  · rw [if_neg hj, roundq_zero]; norm_num

/-- On the `K > 1` path, `col_not_assigned` is the complementary indicator. -/
theorem colNotAssigned_eq_ind (P : ℕ) (acts pred : Batch) (K n j : ℕ) (hK : 2 ≤ K) :
    colNotAssigned P acts pred K n j
      = if j ∈ (assignmentPairs P acts pred K n).map Prod.snd then 0 else 1 := by
  rw [colNotAssigned, colAssigned_eq_ind P acts pred K n j hK]
  by_cases hj : j ∈ (assignmentPairs P acts pred K n).map Prod.snd
  · rw [if_pos hj, if_pos hj, if_pos (by norm_num)]
  · rw [if_neg hj, if_neg hj, if_neg (by norm_num)]

/-- For well-shaped inputs with `K ≥ 2` and `L ≥ 2`, `calculateLoss`
succeeds and returns the aggregated loss values. -/
theorem calculateLoss_eq (cfg : Config) (acts pred : Batch) (N K L : ℕ)
    (ha : RectBatch acts N K L) (hp : RectBatch pred N K L)
    (hN : 1 ≤ N) (hK : 2 ≤ K) (hL : 2 ≤ L) :
    calculateLoss cfg acts pred = .ok (lossOutputOf cfg acts pred N K L) := by
  have hN0 : 0 < N := hN
  have e1 : acts.length = N := ha.1
  have e2 : (acts.getD 0 []).length = K := ha.item_length hN0
  have e3 : ((acts.getD 0 []).getD 0 []).length = L := by
    have h0 := ha.traj_length hN0 (show 0 < K by omega)
    simpa [getTraj] using h0
  have e4 : pred.length = N := hp.1
  have e5 : (pred.getD 0 []).length = K := hp.item_length hN0
  have e6 : ((pred.getD 0 []).getD 0 []).length = L := by
    have h0 := hp.traj_length hN0 (show 0 < K by omega)
    simpa [getTraj] using h0
  have hL2 : ¬(L < 2) := by omega
  have hK1 : ¬(K ≤ 1) := by omega
  rw [calculateLoss, e3, e6, e2, e5, e1, e4]
  simp [hL2, hK1]

/-- A 0/1-masked sum over a list equals the sum over the filtered list. -/
theorem sum_ind_filter (l : List ℕ) (p : ℕ → Prop) [DecidablePred p] (f : ℕ → ℚ) :
    (l.map (fun j => (if p j then (1 : ℚ) else 0) * f j)).sum
      = ((l.filter (fun j => decide (p j))).map f).sum := by
  induction l with
  | nil => rfl
  | cons x xs ih =>
    rw [List.map_cons, List.sum_cons, List.filter_cons]
    by_cases hx : p x
    · rw [if_pos hx, one_mul, if_pos (by simpa using hx), List.map_cons, List.sum_cons, ih]
    · rw [if_neg hx, zero_mul, if_neg (by simpa using hx), ih, zero_add]

/-- C1: for every batch of `N` items with `K ≥ 2` predicted slots of length
`L ≥ 2` each, the scalar returned by the loss computation equals
`matched_cost[full] + weight_prob * prob_loss`, where `matched_cost[full]`
averages the assigned full costs over `N·K` and `prob_loss` is the averaged
sum of `(score[j]-1)²` over assigned slots plus the un-normalized sum of
`(score[j]+1)²` over unassigned slots. -/
theorem c1_loss_formula (cfg : Config) (acts pred : Batch) (N K L : ℕ)
    (ha : RectBatch acts N K L) (hp : RectBatch pred N K L)
    (hN : 1 ≤ N) (hK : 2 ≤ K) (hL : 2 ≤ L) :
    ∃ out, calculateLoss cfg acts pred = Except.ok out
      ∧ out.loss = matchedCostFull cfg acts pred N K L
          + cfg.weightProb * specProbLoss cfg acts pred N K := by
  refine ⟨lossOutputOf cfg acts pred N K L,
    calculateLoss_eq cfg acts pred N K L ha hp hN hK hL, ?_⟩
  have hA : sumRange N (fun n => sumRange K (fun j =>
        colAssigned cfg.trajSizePosCtrlPts acts pred K n j *
          (existOf (getTraj pred n j) - 1) ^ 2))
      = sumRange N (fun n =>
        (((List.range K).filter (fun j =>
            j ∈ (assignmentPairs cfg.trajSizePosCtrlPts acts pred K n).map Prod.snd)).map
          (fun j => (existOf (getTraj pred n j) - 1) ^ 2)).sum) := by
    apply sumRange_congr
    intro n _
    rw [sumRange, ← sum_ind_filter (List.range K)
      (fun j => j ∈ (assignmentPairs cfg.trajSizePosCtrlPts acts pred K n).map Prod.snd)
      (fun j => (existOf (getTraj pred n j) - 1) ^ 2)]
    apply congrArg List.sum
    apply List.map_congr_left
    intro j _
    rw [colAssigned_eq_ind _ _ _ _ _ _ hK]
  have hB : sumRange N (fun n => sumRange K (fun j =>
        colNotAssigned cfg.trajSizePosCtrlPts acts pred K n j *
          (existOf (getTraj pred n j) + 1) ^ 2))
      = sumRange N (fun n =>
        (((List.range K).filter (fun j =>
            j ∉ (assignmentPairs cfg.trajSizePosCtrlPts acts pred K n).map Prod.snd)).map
          (fun j => (existOf (getTraj pred n j) + 1) ^ 2)).sum) := by
    apply sumRange_congr
    intro n _
    rw [sumRange, ← sum_ind_filter (List.range K)
      (fun j => j ∉ (assignmentPairs cfg.trajSizePosCtrlPts acts pred K n).map Prod.snd)
      (fun j => (existOf (getTraj pred n j) + 1) ^ 2)]
    apply congrArg List.sum
    apply List.map_congr_left
    intro j _
    rw [colNotAssigned_eq_ind _ _ _ _ _ _ hK]
    by_cases hj : j ∈ (assignmentPairs cfg.trajSizePosCtrlPts acts pred K n).map Prod.snd
    · rw [if_pos hj, if_neg (not_not_intro hj)]
    · rw [if_neg hj, if_pos hj]
  show posYawTimeLossVal cfg acts pred N K L + cfg.weightProb * probLossVal cfg acts pred N K
      = matchedCostFull cfg acts pred N K L + cfg.weightProb * specProbLoss cfg acts pred N K
  rw [probLossVal, specProbLoss, hA, hB]
  rfl

/-- Witness for C1 at a concrete batch with `N = 1`, `K = 2`, `L = 4`. -/
theorem c1_loss_formula_witness :
    ∃ out, calculateLoss ⟨1, 1, 1/100⟩
        [[[0, 0, 0, 1], [1, 0, 0, 1]]] [[[0, 0, 0, 1], [1, 0, 0, 1]]] = Except.ok out
      ∧ out.loss = matchedCostFull ⟨1, 1, 1/100⟩
            [[[0, 0, 0, 1], [1, 0, 0, 1]]] [[[0, 0, 0, 1], [1, 0, 0, 1]]] 1 2 4
          + (1/100 : ℚ) * specProbLoss ⟨1, 1, 1/100⟩
            [[[0, 0, 0, 1], [1, 0, 0, 1]]] [[[0, 0, 0, 1], [1, 0, 0, 1]]] 1 2 :=
  c1_loss_formula ⟨1, 1, 1/100⟩ _ _ 1 2 4
    (by decide) (by decide) (by decide) (by decide) (by decide)

/-- C2 (code bug): entry `(0,0)` of the time cost matrix of batch item 0 is
*not* computed independently per batch item — the code sums the squared time
differences over the whole batch (`dim=0` is the batch dimension) and
broadcasts.  The two expert batches below agree on item 0 (time 0), differ
only in item 1's time (0 versus 5), yet item 0's entry changes from 0 to 25. -/
theorem c2_time_cost_not_per_item :
    distanceTimeMatrixEntry [[[0, 0, 0, 1]], [[0, 0, 5, 1]]]
        [[[0, 0, 0, 1]], [[0, 0, 0, 1]]] 0 0 0 = 25
      ∧ distanceTimeMatrixEntry [[[0, 0, 0, 1]], [[0, 0, 0, 1]]]
        [[[0, 0, 0, 1]], [[0, 0, 0, 1]]] 0 0 0 = 0 := by decide

/-- C3 counterexample: with `P = 1`, `Y = 1`, `L = 4`, experts and
predictions differing by 1 in each of the three compared components, the
code's `full` entry is `3/4` (division by `L = P+Y+2`), not the claimed `1`
(division by the compared sub-vector length `P+Y+1 = 3`). -/
theorem c3_full_cost_counterexample :
    distanceMatrixEntry 4 [1, 1, 1, 9] [0, 0, 0, 9] = 3 / 4
      ∧ specFullEntry [1, 1, 1, 9] [0, 0, 0, 9] = 1
      ∧ distanceMatrixEntry 4 [1, 1, 1, 9] [0, 0, 0, 9]
          ≠ specFullEntry [1, 1, 1, 9] [0, 0, 0, 9] := by decide

/-- C3 amended: the `full` entry is the squared error summed over the first
`P+Y+1` components (existence excluded) divided by the *whole* vector length
`P+Y+2` — the denominator includes the excluded existence component. -/
theorem c3_full_cost_amended (P Y : ℕ) (e s : Traj)
    (he : e.length = P + Y + 2) (hs : s.length = P + Y + 2) :
    distanceMatrixEntry (P + Y + 2) e s
      = sqDiffSum (e.take (P + Y + 1)) (s.take (P + Y + 1)) / ((P + Y + 2 : ℕ) : ℚ) := by
  rw [distanceMatrixEntry, List.dropLast_eq_take, List.dropLast_eq_take, he, hs]
  have h21 : P + Y + 2 - 1 = P + Y + 1 := rfl
  rw [h21]

/-- Witness for C3's amended theorem at `P = Y = 1`. -/
theorem c3_full_cost_amended_witness :
    distanceMatrixEntry (1 + 1 + 2) [1, 1, 1, 9] [0, 0, 0, 27]
      = sqDiffSum ([(1 : ℚ), 1, 1, 9].take (1 + 1 + 1)) ([(0 : ℚ), 0, 0, 27].take (1 + 1 + 1))
          / ((1 + 1 + 2 : ℕ) : ℚ) :=
  c3_full_cost_amended 1 1 [1, 1, 1, 9] [0, 0, 0, 27] (by decide) (by decide)

/-- C4 (code bug): for every well-shaped batch with `K = 1` the computation
does not return a loss: `col_assigned` is assigned only inside the
`num_of_traj_per_action > 1` branch but read unconditionally at the
`prob_loss` line, so Python raises `UnboundLocalError`. -/
theorem c4_k1_unbound_local (cfg : Config) (acts pred : Batch) (N L : ℕ)
    (ha : RectBatch acts N 1 L) (hp : RectBatch pred N 1 L)
    (hN : 1 ≤ N) (hL : 2 ≤ L) :
    calculateLoss cfg acts pred = Except.error CalcError.unboundLocalColAssigned := by
  have hN0 : 0 < N := hN
  have e1 : acts.length = N := ha.1
  have e2 : (acts.getD 0 []).length = 1 := ha.item_length hN0
  have e3 : ((acts.getD 0 []).getD 0 []).length = L := by
    have h0 := ha.traj_length hN0 (show 0 < 1 by decide)
    simpa [getTraj] using h0
  have e4 : pred.length = N := hp.1
  have e5 : (pred.getD 0 []).length = 1 := hp.item_length hN0
  have e6 : ((pred.getD 0 []).getD 0 []).length = L := by
    have h0 := hp.traj_length hN0 (show 0 < 1 by decide)
    simpa [getTraj] using h0
  have hL2 : ¬(L < 2) := by omega
  rw [calculateLoss, e3, e6, e2, e5, e1, e4]
  simp [hL2]

/-- Witness for C4 at a concrete `N = 1`, `K = 1`, `L = 4` batch. -/
theorem c4_k1_unbound_local_witness :
    calculateLoss ⟨1, 1, 1/100⟩ [[[0, 0, 0, 1]]] [[[0, 0, 0, 1]]]
      = Except.error CalcError.unboundLocalColAssigned :=
  c4_k1_unbound_local ⟨1, 1, 1/100⟩ _ _ 1 4 (by decide) (by decide) (by decide) (by decide)

/-- C10 counterexample: the interface admits `P = 1 > 0`, `Y = 0 ≥ 0`
(vector length `L = P+Y+2 = 3`), yet the divisor used by the yaw cost is
`traj_size_yaw_ctrl_pts = 0`: the yaw entries divide by zero (NaN in the
float code). -/
theorem c10_div_by_zero_counterexample :
    ¬ specNoDivByZero 1 0 3 ∧ yawDivisor 0 = 0 := by
  constructor
  · intro h
    exact h.2.2 (by norm_num [yawDivisor])
  · norm_num [yawDivisor]

/-- C10 amended: the cost-matrix divisors are all nonzero provided `Y > 0`
(in addition to `P > 0` and a positive vector length); `Y = 0` makes the yaw
divisor zero. -/
theorem c10_divisors_amended (P Y L : ℕ) (hP : 0 < P) (hY : 0 < Y) (hL : 0 < L) :
    specNoDivByZero P Y L := by
  refine ⟨Nat.cast_ne_zero.mpr (by omega), Nat.cast_ne_zero.mpr (by omega), ?_⟩
  rw [yawDivisor]
  exact Nat.cast_ne_zero.mpr (by omega)

/-- Witness for C10's amended theorem. -/
theorem c10_divisors_amended_witness : specNoDivByZero 2 1 5 :=
  c10_divisors_amended 2 1 5 (by decide) (by decide) (by decide)

/-- On the `K > 1` path an entry is 1 exactly when its pair was assigned. -/
theorem alphaMatrixEntry_eq_one_iff (P : ℕ) (acts pred : Batch) (K n i j : ℕ) (hK : 2 ≤ K) :
    alphaMatrixEntry P acts pred K n i j = 1 ↔ (i, j) ∈ assignmentPairs P acts pred K n := by
  rw [alphaMatrixEntry_eq_ind P acts pred K n i j hK]
  by_cases hmem : (i, j) ∈ assignmentPairs P acts pred K n
  · simp [hmem]
  · simp [hmem]

/-- On the `K > 1` path, rows outside the valid-rows list are all zero in
`alpha_matrix`. -/
theorem alphaMatrixEntry_invalid (P : ℕ) (acts pred : Batch) (K n : ℕ) (hK : 2 ≤ K) :
    ∀ i, i ∉ validExpertRows acts K n → ∀ j, alphaMatrixEntry P acts pred K n i j = 0 := by
  intro i hi j
  rw [alphaMatrixEntry_eq_ind P acts pred K n i j hK, if_neg]
  intro hmem
  exact hi (assignmentPairs_fst P acts pred K n ▸ List.mem_map.mpr ⟨(i, j), hmem, rfl⟩)

/-- When every expert row is invalid, the solver is run on a rowless cost
matrix and returns the empty matching. -/
theorem assignmentPairs_of_no_valid (P : ℕ) (acts pred : Batch) (K n : ℕ)
    (hv : validExpertRows acts K n = []) :
    assignmentPairs P acts pred K n = [] := by
  rw [assignmentPairs, linearSumAssignment, hv]
  rfl

/-- C5 counterexample: at `K = 1` with the sole expert invalid
(existence −1), the all-ones `alpha_matrix` of line 407 survives, so the
invalid expert row *does* receive a match — refuting the claim for `K = 1`
(the computation then dies with the `col_assigned` UnboundLocalError rather
than completing as claimed). -/
theorem c5_invalid_match_counterexample :
    validExpertRows [[[7, 7, 0, -1]]] 1 0 = []
      ∧ alphaMatrixEntry 1 [[[7, 7, 0, -1]]] [[[0, 0, 0, 0]]] 1 0 0 0 = 1 := by decide

/-- C5 amended: on the `K ≥ 2` path, an invalid expert row never receives
a match; if every expert row of an item is invalid, the item's assignment
matrix is all-zero, the item contributes 0 against any cost matrix, and
every predicted slot of the item is unassigned (feeding the `(score+1)²`
branch of `prob_loss`); the computation returns successfully for
well-shaped inputs. -/
theorem c5_invalid_rows_amended (cfg : Config) (acts pred : Batch) (N K L n : ℕ)
    (ha : RectBatch acts N K L) (hp : RectBatch pred N K L)
    (hN : 1 ≤ N) (hK : 2 ≤ K) (hL : 2 ≤ L) :
    (∀ i, i ∉ validExpertRows acts K n →
      ∀ j, alphaMatrixEntry cfg.trajSizePosCtrlPts acts pred K n i j = 0)
    ∧ (validExpertRows acts K n = [] →
        (∀ i j, alphaMatrixEntry cfg.trajSizePosCtrlPts acts pred K n i j = 0)
        ∧ (∀ cost : ℕ → ℕ → ℚ,
            sumRange K (fun i => sumRange K (fun j =>
              alphaMatrixEntry cfg.trajSizePosCtrlPts acts pred K n i j * cost i j)) = 0)
        ∧ (∀ j, colAssigned cfg.trajSizePosCtrlPts acts pred K n j = 0
            ∧ colNotAssigned cfg.trajSizePosCtrlPts acts pred K n j = 1))
    ∧ ∃ out, calculateLoss cfg acts pred = Except.ok out := by
  refine ⟨alphaMatrixEntry_invalid _ acts pred K n hK, ?_, ?_⟩
  · intro hv
    have hpairs := assignmentPairs_of_no_valid cfg.trajSizePosCtrlPts acts pred K n hv
    have hz : ∀ i j, alphaMatrixEntry cfg.trajSizePosCtrlPts acts pred K n i j = 0 := by
      intro i j
      rw [alphaMatrixEntry_eq_ind _ acts pred K n i j hK, hpairs, if_neg (List.not_mem_nil _)]
    refine ⟨hz, ?_, ?_⟩
    · intro cost
      have hinner : ∀ i, i < K → sumRange K (fun j =>
          alphaMatrixEntry cfg.trajSizePosCtrlPts acts pred K n i j * cost i j) = 0 := by
        intro i _
        rw [sumRange_congr (fun j _ => by rw [hz i j, zero_mul]), sumRange_zero_fn]
      rw [sumRange_congr hinner, sumRange_zero_fn]
    · intro j
      constructor
      · rw [colAssigned_eq_ind _ acts pred K n j hK, hpairs]; simp
      · rw [colNotAssigned_eq_ind _ acts pred K n j hK, hpairs]; simp
  · exact ⟨lossOutputOf cfg acts pred N K L, calculateLoss_eq cfg acts pred N K L ha hp hN hK hL⟩

/-- Witness for C5's amended theorem: an item whose two experts are both
invalid has a zero assignment entry. -/
theorem c5_invalid_rows_amended_witness :
    alphaMatrixEntry 1 [[[1, 0, 0, -1], [2, 0, 0, -1]]] [[[0, 0, 0, 0], [0, 0, 0, 0]]] 2 0 0 0
      = 0 :=
  ((c5_invalid_rows_amended ⟨1, 1, 1/100⟩
      [[[1, 0, 0, -1], [2, 0, 0, -1]]] [[[0, 0, 0, 0], [0, 0, 0, 0]]] 1 2 4 0
      (by decide) (by decide) (by decide) (by decide) (by decide)).2.1 (by decide)).1 0 0

/-- C6: the produced assignment matches exactly the valid expert rows, to
pairwise distinct predicted columns below `K`, and minimizes the total
position cost among all such matchings; on the spec's concrete instance
(`K = 2`, position costs `[[1,4],[3,2]]`, both experts valid, `N = 1`) it
selects `(0,0),(1,1)` and the reported `pos_loss` is `3/(1·2) = 3/2`. -/
theorem c6_optimal_assignment :
    (∀ (P : ℕ) (acts pred : Batch) (K n : ℕ), 2 ≤ K →
      ((assignmentPairs P acts pred K n).map Prod.fst = validExpertRows acts K n
        ∧ ((assignmentPairs P acts pred K n).map Prod.snd).Nodup
        ∧ (∀ c ∈ (assignmentPairs P acts pred K n).map Prod.snd, c < K))
      ∧ ∀ m : List (ℕ × ℕ),
          m.map Prod.fst = validExpertRows acts K n →
          (m.map Prod.snd).Nodup →
          (∀ c ∈ m.map Prod.snd, c ∈ List.range K) →
          matchCost (itemPosCost P acts pred n) (assignmentPairs P acts pred K n)
            ≤ matchCost (itemPosCost P acts pred n) m)
    ∧ assignmentPairs 3 [[[0, 0, 0, 0, 0, 1], [4, 1, 1, 0, 0, 1]]]
        [[[1, 1, 1, 0, 0, 1], [2, 2, 2, 0, 0, 1]]] 2 0 = [(0, 0), (1, 1)]
    ∧ okPosLoss (calculateLoss ⟨3, 1, 1/100⟩
        [[[0, 0, 0, 0, 0, 1], [4, 1, 1, 0, 0, 1]]]
        [[[1, 1, 1, 0, 0, 1], [2, 2, 2, 0, 0, 1]]]) = some (3 / 2) := by
  refine ⟨?_, by decide, by decide⟩
  intro P acts pred K n _
  refine ⟨⟨assignmentPairs_fst P acts pred K n, assignmentPairs_snd_nodup P acts pred K n,
    assignmentPairs_snd_lt P acts pred K n⟩, ?_⟩
  intro m h1 h2 h3
  exact assignmentPairs_min P acts pred K n m
    ((mem_allMatchings _ _ _ (List.nodup_range K)).mpr ⟨h1, h2, h3⟩)

/-- Witness for C6: at the spec's concrete instance, the solved assignment
costs no more than the alternative matching `(0,1),(1,0)`. -/
theorem c6_optimal_assignment_witness :
    matchCost (itemPosCost 3 [[[0, 0, 0, 0, 0, 1], [4, 1, 1, 0, 0, 1]]]
        [[[1, 1, 1, 0, 0, 1], [2, 2, 2, 0, 0, 1]]] 0)
      (assignmentPairs 3 [[[0, 0, 0, 0, 0, 1], [4, 1, 1, 0, 0, 1]]]
        [[[1, 1, 1, 0, 0, 1], [2, 2, 2, 0, 0, 1]]] 2 0)
      ≤ matchCost (itemPosCost 3 [[[0, 0, 0, 0, 0, 1], [4, 1, 1, 0, 0, 1]]]
        [[[1, 1, 1, 0, 0, 1], [2, 2, 2, 0, 0, 1]]] 0) [(0, 1), (1, 0)] :=
  (c6_optimal_assignment.1 3 [[[0, 0, 0, 0, 0, 1], [4, 1, 1, 0, 0, 1]]]
    [[[1, 1, 1, 0, 0, 1], [2, 2, 2, 0, 0, 1]]] 2 0 (by decide)).2
    [(0, 1), (1, 0)] (by decide) (by decide) (by decide)

/-- C7 counterexample: the claimed invariant includes `K = 1`, but at
`K = 1` with an invalid expert (existence −1) the surviving all-ones
`alpha_matrix` puts a 1 in the invalid expert's row. -/
theorem c7_invariant_counterexample :
    validExpertRows [[[5, 5, 0, -1]]] 1 0 = []
      ∧ alphaMatrixEntry 2 [[[5, 5, 0, -1]]] [[[1, 2, 3, 0]]] 1 0 0 0 = 1 := by decide

/-- C7 amended: on the `K ≥ 2` path the assignment-matrix invariant holds:
every valid expert row carries exactly one 1 (in a column `< K`), every
invalid expert row is all zero, and no column carries two 1s. -/
theorem c7_invariant_amended (P : ℕ) (acts pred : Batch) (K n : ℕ) (hK : 2 ≤ K) :
    (∀ i ∈ validExpertRows acts K n,
      ∃! j, j < K ∧ alphaMatrixEntry P acts pred K n i j = 1)
    ∧ (∀ i, i ∉ validExpertRows acts K n →
        ∀ j, alphaMatrixEntry P acts pred K n i j = 0)
    ∧ (∀ j i1 i2, alphaMatrixEntry P acts pred K n i1 j = 1 →
        alphaMatrixEntry P acts pred K n i2 j = 1 → i1 = i2) := by
  have hfst := assignmentPairs_fst P acts pred K n
  have hfst_nodup : ((assignmentPairs P acts pred K n).map Prod.fst).Nodup := by
    rw [hfst]; exact validExpertRows_nodup acts K n
  have hfst_inj := List.inj_on_of_nodup_map hfst_nodup
  have hsnd_inj := List.inj_on_of_nodup_map (assignmentPairs_snd_nodup P acts pred K n)
  refine ⟨?_, alphaMatrixEntry_invalid P acts pred K n hK, ?_⟩
  · intro i hi
    rw [← hfst] at hi
    obtain ⟨p, hp, hpi⟩ := List.mem_map.mp hi
    refine ⟨p.2, ⟨(assignmentPairs_bounds P acts pred K n p hp).2, ?_⟩, ?_⟩
    · rw [alphaMatrixEntry_eq_one_iff P acts pred K n i p.2 hK]
      have hpe : (i, p.2) = p := Prod.ext (by rw [hpi]) rfl
      rw [hpe]; exact hp
    · intro j hj
      have hmem := (alphaMatrixEntry_eq_one_iff P acts pred K n i j hK).mp hj.2
      have heq := hfst_inj hmem hp (by rw [hpi])
      exact congrArg Prod.snd heq
  · intro j i1 i2 h1 h2
    have hm1 := (alphaMatrixEntry_eq_one_iff P acts pred K n i1 j hK).mp h1
    have hm2 := (alphaMatrixEntry_eq_one_iff P acts pred K n i2 j hK).mp h2
    exact congrArg Prod.fst (hsnd_inj hm1 hm2 rfl)

/-- Witness for C7's amended theorem: with one valid and one invalid
expert, the invalid expert's row is zero. -/
theorem c7_invariant_amended_witness :
    alphaMatrixEntry 1 [[[0, 0, 0, 1], [9, 9, 9, -1]]] [[[0, 0, 0, 0], [1, 1, 1, 0]]] 2 0 1 0
      = 0 :=
  (c7_invariant_amended 1 [[[0, 0, 0, 1], [9, 9, 9, -1]]]
    [[[0, 0, 0, 0], [1, 1, 1, 0]]] 2 0 (by decide)).2.1 1 (by decide) 0

/-- In-range `getD` commutes with `map`. -/
theorem getD_map {α β : Type} (f : α → β) (l : List α) (n : ℕ) (d : β) (d' : α)
    (h : n < l.length) : (l.map f).getD n d = f (l.getD n d') := by
  rw [List.getD_eq_getElem?_getD, List.getElem?_eq_getElem (by simpa using h), Option.getD_some,
    List.getElem_map, List.getD_eq_getElem?_getD, List.getElem?_eq_getElem h, Option.getD_some]

/-- An in-range `getD` into `List.range` is the index itself. -/
theorem getD_range (n j : ℕ) (h : j < n) : (List.range n).getD j 0 = j := by
  rw [List.getD_eq_getElem?_getD, List.getElem?_eq_getElem (by simpa using h),
    Option.getD_some, List.getElem_range]

/-- Reading slot `j` of a reordered item reads slot `σ j` of the original
item. -/
theorem permuteItem_getD (item : TrajSet) (σ : ℕ → ℕ) (K : ℕ) (hlen : item.length = K)
    {j : ℕ} (hj : j < K) :
    (permuteItem σ item).getD j [] = item.getD (σ j) [] := by
  rw [permuteItem, hlen, getD_map _ (List.range K) j [] 0 (by simpa using hj),
    getD_range K j hj]

/-- Itemwise reordering preserves rectangularity when every index map stays
below `K` on its item. -/
theorem permutePredAt_rect (pred : Batch) (N K L : ℕ) (σ : ℕ → ℕ → ℕ)
    (hp : RectBatch pred N K L) (hσ : ∀ n < N, ∀ j < K, σ n j < K) :
    RectBatch (permutePredAt σ pred) N K L := by
  constructor
  · rw [permutePredAt]; simp [hp.1]
  · intro s' hs'
    rw [permutePredAt] at hs'
    obtain ⟨n, hn, rfl⟩ := List.mem_map.mp hs'
    have hnN : n < N := hp.1 ▸ List.mem_range.mp hn
    have hlen : (pred.getD n []).length = K := hp.item_length hnN
    constructor
    · rw [permuteItem, List.length_map, List.length_range, hlen]
    · intro t ht
      rw [permuteItem] at ht
      obtain ⟨j, hj, rfl⟩ := List.mem_map.mp ht
      have hjK : j < K := by rw [← hlen]; exact List.mem_range.mp hj
      have hmem : (pred.getD n []).getD (σ n j) [] ∈ pred.getD n [] :=
        getD_mem _ _ [] (by rw [hlen]; exact hσ n hnN j hjK)
      exact (hp.2 _ (getD_mem pred n [] (hp.1 ▸ hnN))).2 _ hmem

/-- Reading slot `j` of item `n` of the itemwise-reordered batch reads slot
`σ n j` of item `n` of the original batch. -/
theorem getTraj_permutePredAt (pred : Batch) (N K L : ℕ) (σ : ℕ → ℕ → ℕ)
    (hp : RectBatch pred N K L) {n j : ℕ} (hn : n < N) (hj : j < K) :
    getTraj (permutePredAt σ pred) n j = getTraj pred n (σ n j) := by
  rw [getTraj, getTraj, permutePredAt]
  have hn' : n < pred.length := hp.1 ▸ hn
  rw [getD_map _ (List.range pred.length) n [] 0 (by simpa using hn'),
    getD_range pred.length n hn']
  exact permuteItem_getD (pred.getD n []) (σ n) K (hp.item_length hn) hj

/-- Cost of a matching whose columns were re-indexed. -/
theorem matchCost_mapSnd (c : ℕ → ℕ → ℚ) (g : ℕ → ℕ) (m : List (ℕ × ℕ)) :
    matchCost c (m.map (fun p => (p.1, g p.2))) = (m.map (fun p => c p.1 (g p.2))).sum := by
  rw [matchCost, List.map_map]
  rfl

/-- Re-indexing the columns of an admissible matching by an injective
self-map of the columns yields an admissible matching. -/
theorem mapSnd_mem_allMatchings (rows : List ℕ) (K : ℕ) (g : ℕ → ℕ) (m : List (ℕ × ℕ))
    (hm : m ∈ allMatchings rows (List.range K)) (hg : ∀ j < K, g j < K)
    (hginj : ∀ a < K, ∀ b < K, g a = g b → a = b) :
    m.map (fun p => (p.1, g p.2)) ∈ allMatchings rows (List.range K) := by
  obtain ⟨h1, h2, h3⟩ := (mem_allMatchings rows _ m (List.nodup_range K)).mp hm
  apply (mem_allMatchings rows _ _ (List.nodup_range K)).mpr
  have hlt : ∀ c ∈ m.map Prod.snd, c < K := fun c hc => List.mem_range.mp (h3 c hc)
  refine ⟨?_, ?_, ?_⟩
  · rw [List.map_map]
    exact h1
  · rw [List.map_map]
    have hcomp : (Prod.snd ∘ fun p : ℕ × ℕ => (p.1, g p.2)) = g ∘ Prod.snd := rfl
    rw [hcomp, ← List.map_map]
    apply List.Nodup.map_on ?_ h2
    intro a ha b hb hab
    exact hginj a (hlt a ha) b (hlt b hb) hab
  · intro x hx
    rw [List.map_map] at hx
    obtain ⟨p, hp, rfl⟩ := List.mem_map.mp hx
    exact List.mem_range.mpr
      (hg _ (hlt _ (List.mem_map.mpr ⟨p, hp, rfl⟩)))

/-- The optimal value of the assignment problem is invariant under
re-indexing the columns of the cost matrix by a bijection of the columns:
solving the permuted problem attains the same total cost as solving the
original one. -/
theorem linearSumAssignment_perm_value (c c' : ℕ → ℕ → ℚ) (rows : List ℕ) (K : ℕ)
    (σ τ : ℕ → ℕ)
    (hσ : ∀ j < K, σ j < K) (hτ : ∀ j < K, τ j < K)
    (hτσ : ∀ j < K, τ (σ j) = j) (hστ : ∀ j < K, σ (τ j) = j)
    (hrows : rows.length ≤ K)
    (hcc' : ∀ i j, j < K → c' i j = c i (σ j)) :
    matchCost c' (linearSumAssignment c' rows K) = matchCost c (linearSumAssignment c rows K) := by
  have hne : allMatchings rows (List.range K) ≠ [] :=
    allMatchings_ne_nil rows _ (by simpa using hrows)
  have hA : linearSumAssignment c' rows K ∈ allMatchings rows (List.range K) :=
    pickMin_mem _ _ hne
  have hB : linearSumAssignment c rows K ∈ allMatchings rows (List.range K) :=
    pickMin_mem _ _ hne
  have hAsnd : ∀ p ∈ linearSumAssignment c' rows K, p.2 < K := by
    intro p hp
    exact List.mem_range.mp
      (((mem_allMatchings rows _ _ (List.nodup_range K)).mp hA).2.2 _
        (List.mem_map.mpr ⟨p, hp, rfl⟩))
  have hBsnd : ∀ p ∈ linearSumAssignment c rows K, p.2 < K := by
    intro p hp
    exact List.mem_range.mp
      (((mem_allMatchings rows _ _ (List.nodup_range K)).mp hB).2.2 _
        (List.mem_map.mpr ⟨p, hp, rfl⟩))
  have hσinj : ∀ a < K, ∀ b < K, σ a = σ b → a = b := by
    intro a haK b hbK hab
    have h := congrArg τ hab
    rw [hτσ a haK, hτσ b hbK] at h
    exact h
  have hτinj : ∀ a < K, ∀ b < K, τ a = τ b → a = b := by
    intro a haK b hbK hab
    have h := congrArg σ hab
    rw [hστ a haK, hστ b hbK] at h
    exact h
  have hc1 : matchCost c ((linearSumAssignment c' rows K).map (fun p => (p.1, σ p.2)))
      = matchCost c' (linearSumAssignment c' rows K) := by
    rw [matchCost_mapSnd, matchCost]
    apply congrArg List.sum
    apply List.map_congr_left
    intro p hp
    exact (hcc' p.1 p.2 (hAsnd p hp)).symm
  have hc2 : matchCost c' ((linearSumAssignment c rows K).map (fun p => (p.1, τ p.2)))
      = matchCost c (linearSumAssignment c rows K) := by
    rw [matchCost_mapSnd, matchCost]
    apply congrArg List.sum
    apply List.map_congr_left
    intro p hp
    rw [hcc' p.1 (τ p.2) (hτ _ (hBsnd p hp)), hστ _ (hBsnd p hp)]
  apply le_antisymm
  · calc matchCost c' (linearSumAssignment c' rows K)
        ≤ matchCost c' ((linearSumAssignment c rows K).map (fun p => (p.1, τ p.2))) :=
          pickMin_le _ _ _ (mapSnd_mem_allMatchings rows K τ _ hB hτ hτinj)
      _ = matchCost c (linearSumAssignment c rows K) := hc2
  · calc matchCost c (linearSumAssignment c rows K)
        ≤ matchCost c ((linearSumAssignment c' rows K).map (fun p => (p.1, σ p.2))) :=
          pickMin_le _ _ _ (mapSnd_mem_allMatchings rows K σ _ hA hσ hσinj)
      _ = matchCost c' (linearSumAssignment c' rows K) := hc1

/-- C8 counterexample: with an all-zero position cost matrix (so the solver
faces a tie) the deterministic solver returns the same matching before and
after swapping the two predicted trajectories, and the asymmetric `full`
costs then make the scalar loss change: `81/8` before, `101/8` after.  Only
`matched_cost[pos]` (the solved objective) is guaranteed invariant. -/
theorem c8_permutation_counterexample :
    okLoss (calculateLoss ⟨1, 1, 1/100⟩
        [[[0, 0, 0, 1], [0, 1, 0, 1]]] [[[0, 0, 0, 1], [0, 10, 0, 1]]]) = some (81 / 8)
      ∧ okLoss (calculateLoss ⟨1, 1, 1/100⟩
        [[[0, 0, 0, 1], [0, 1, 0, 1]]] [[[0, 10, 0, 1], [0, 0, 0, 1]]]) = some (101 / 8)
      ∧ (81 / 8 : ℚ) ≠ 101 / 8 := by decide

/-- C8 amended: reordering the predicted trajectories within any item —
item `n` by its own bijection `σ n` of the slot indices, so in particular
permuting a single item's slots (identity elsewhere) — leaves the reported
`pos_loss` (`matched_cost[pos]`, the solver's objective) unchanged; the
scalar loss and the other matched costs can change when the position costs
are tied (see the counterexample). -/
theorem c8_pos_loss_amended (cfg : Config) (acts pred : Batch) (N K L : ℕ) (σ τ : ℕ → ℕ → ℕ)
    (ha : RectBatch acts N K L) (hp : RectBatch pred N K L)
    (hN : 1 ≤ N) (hK : 2 ≤ K) (hL : 2 ≤ L)
    (hσ : ∀ n < N, ∀ j < K, σ n j < K) (hτ : ∀ n < N, ∀ j < K, τ n j < K)
    (hτσ : ∀ n < N, ∀ j < K, τ n (σ n j) = j) (hστ : ∀ n < N, ∀ j < K, σ n (τ n j) = j) :
    okPosLoss (calculateLoss cfg acts (permutePredAt σ pred))
      = okPosLoss (calculateLoss cfg acts pred) := by
  have hp' : RectBatch (permutePredAt σ pred) N K L := permutePredAt_rect pred N K L σ hp hσ
  rw [calculateLoss_eq cfg acts pred N K L ha hp hN hK hL,
    calculateLoss_eq cfg acts (permutePredAt σ pred) N K L ha hp' hN hK hL]
  show some (posLossVal cfg acts (permutePredAt σ pred) N K)
      = some (posLossVal cfg acts pred N K)
  congr 1
  rw [posLossVal, posLossVal]
  congr 1
  apply sumRange_congr
  intro n hn
  rw [sum_alpha_mul_eq_matchCost cfg.trajSizePosCtrlPts acts (permutePredAt σ pred) K n hK
      (fun i j => distancePosMatrixEntry cfg.trajSizePosCtrlPts (getTraj acts n i)
        (getTraj (permutePredAt σ pred) n j)),
    sum_alpha_mul_eq_matchCost cfg.trajSizePosCtrlPts acts pred K n hK
      (fun i j => distancePosMatrixEntry cfg.trajSizePosCtrlPts (getTraj acts n i)
        (getTraj pred n j))]
  exact linearSumAssignment_perm_value
    (fun i j => distancePosMatrixEntry cfg.trajSizePosCtrlPts (getTraj acts n i)
      (getTraj pred n j))
    (fun i j => distancePosMatrixEntry cfg.trajSizePosCtrlPts (getTraj acts n i)
      (getTraj (permutePredAt σ pred) n j))
    (validExpertRows acts K n) K (σ n) (τ n)
    (hσ n hn) (hτ n hn) (hτσ n hn) (hστ n hn)
    (by simpa using List.length_filter_le _ (List.range K))
    (fun i j hj => by
      show distancePosMatrixEntry cfg.trajSizePosCtrlPts (getTraj acts n i)
            (getTraj (permutePredAt σ pred) n j)
          = distancePosMatrixEntry cfg.trajSizePosCtrlPts (getTraj acts n i)
            (getTraj pred n (σ n j))
      rw [getTraj_permutePredAt pred N K L σ hp hn hj])

/-- Witness for C8's amended theorem: swapping the two predicted slots of
the (single) item of the counterexample batch leaves `pos_loss`
unchanged. -/
theorem c8_pos_loss_amended_witness :
    okPosLoss (calculateLoss ⟨1, 1, 1/100⟩ [[[0, 0, 0, 1], [0, 1, 0, 1]]]
        (permutePredAt (fun _ j => 1 - j) [[[0, 0, 0, 1], [0, 10, 0, 1]]]))
      = okPosLoss (calculateLoss ⟨1, 1, 1/100⟩
        [[[0, 0, 0, 1], [0, 1, 0, 1]]] [[[0, 0, 0, 1], [0, 10, 0, 1]]]) :=
  c8_pos_loss_amended ⟨1, 1, 1/100⟩ [[[0, 0, 0, 1], [0, 1, 0, 1]]]
    [[[0, 0, 0, 1], [0, 10, 0, 1]]] 1 2 4 (fun _ j => 1 - j) (fun _ j => 1 - j)
    (by decide) (by decide) (by decide) (by decide) (by decide)
    (by decide) (by decide) (by decide) (by decide)

/-- C9 counterexample: no length validation exists.  With `P = 1`, `Y = 1`
(so the claimed required length is `P+Y+2 = 4`) a batch of length-5 vectors
is processed without any error — no `ShapeError` (which the code does not
even define) is raised. -/
theorem c9_no_length_check_counterexample :
    resultIsOk (calculateLoss ⟨1, 1, 1/100⟩
        [[[0, 0, 0, 0, 1], [1, 1, 1, 1, 1]]] [[[0, 0, 0, 0, 1], [1, 1, 1, 1, 1]]]) = true
      ∧ (5 : ℕ) ≠ 1 + 1 + 2 := by decide

/-- C9 amended: the computation never validates the vector length against
`P+Y+2`: any same-shape batch with `K ≥ 2`, `L ≥ 2` succeeds, whatever `L`
is.  The only shape checks are the `assert` statements comparing the
expert-derived and prediction-derived dimensions, which fail (after the
cost matrices are built, before any loss is produced) when the predicted
set is larger than the expert set. -/
theorem c9_shape_handling_amended :
    (∀ (cfg : Config) (acts pred : Batch) (N K L : ℕ),
      RectBatch acts N K L → RectBatch pred N K L → 1 ≤ N → 2 ≤ K → 2 ≤ L →
      ∃ out, calculateLoss cfg acts pred = Except.ok out)
    ∧ (∀ (cfg : Config) (acts pred : Batch) (N K K' L : ℕ),
      RectBatch acts N K L → RectBatch pred N K' L → 1 ≤ N → 1 ≤ K → 2 ≤ L → K < K' →
      calculateLoss cfg acts pred = Except.error CalcError.assertionError) := by
  constructor
  · intro cfg acts pred N K L ha hp hN hK hL
    exact ⟨lossOutputOf cfg acts pred N K L, calculateLoss_eq cfg acts pred N K L ha hp hN hK hL⟩
  · intro cfg acts pred N K K' L ha hp hN hK hL hKK
    have hN0 : 0 < N := hN
    have e1 : acts.length = N := ha.1
    have e2 : (acts.getD 0 []).length = K := ha.item_length hN0
    have e3 : ((acts.getD 0 []).getD 0 []).length = L := by
      have h0 := ha.traj_length hN0 (show 0 < K by omega)
      simpa [getTraj] using h0
    have e4 : pred.length = N := hp.1
    have e5 : (pred.getD 0 []).length = K' := hp.item_length hN0
    have e6 : ((pred.getD 0 []).getD 0 []).length = L := by
      have h0 := hp.traj_length hN0 (show 0 < K' by omega)
      simpa [getTraj] using h0
    have hL2 : ¬(L < 2) := by omega
    have hKle : K ≤ K' := le_of_lt hKK
    have hKne : K' ≠ K := Nat.ne_of_gt hKK
    rw [calculateLoss, e3, e6, e2, e5, e1, e4]
    simp [hL2, hKle, hKne]

/-- Witness for C9's amended theorem: the success branch applied to the
length-5 batch of the counterexample (with `P+Y+2 = 4 ≠ 5`). -/
theorem c9_shape_handling_amended_witness :
    ∃ out, calculateLoss ⟨1, 1, 1/100⟩
        [[[0, 0, 0, 0, 1], [1, 1, 1, 1, 1]]] [[[0, 0, 0, 0, 1], [1, 1, 1, 1, 1]]]
      = Except.ok out :=
  c9_shape_handling_amended.1 ⟨1, 1, 1/100⟩
    [[[0, 0, 0, 0, 1], [1, 1, 1, 1, 1]]] [[[0, 0, 0, 0, 1], [1, 1, 1, 1, 1]]] 1 2 5
    (by decide) (by decide) (by decide) (by decide) (by decide)

end

end BCLoss
